import Mathlib

/-!
Verification development for the molt runtime entry shim (src/main_stub.c)
and the runtime core its extern declarations bind against.

The only code present in the repository is the entry shim:

    int main() {
        molt_main();
        const char* profile = getenv("MOLT_PROFILE");
        if (profile != NULL && profile[0] != '\0' && strcmp(profile, "0") != 0) {
            molt_profile_dump();
        }
        return 0;
    }

All other runtime operations (`molt_json_parse_scalar`, `molt_msgpack_parse_scalar`,
`molt_cbor_parse_scalar`, `molt_get_attr_generic`, `molt_chan_new`, `molt_chan_send`,
`molt_chan_recv`, ...) appear in the repository only as `extern` declarations; their
bodies are not part of the sources.  Those components are therefore modelled from
the specification (sections 3, 4.2, 4.3, 4.4 and 8); every such definition carries a
doc comment beginning with `Modelled from the spec:`.

Byte buffers (`const char* ptr, long len`) are embedded as `List Nat`, each element
one byte.  C strings (NUL-terminated, as returned by `getenv`) are embedded as
`List Nat` of their non-NUL bytes, so the empty C string is `[]`.
-/

/-! ## Byte and digit helpers -/

/-- Is the byte an ASCII decimal digit (48 = '0' .. 57 = '9')? -/
def isDigitByte (b : Nat) : Bool := decide (48 ≤ b) && decide (b ≤ 57)

/-- Value of a list of ASCII digit bytes read in base 10 (most significant first). -/
def natOfDigits (ds : List Nat) : Nat := ds.foldl (fun a d => a * 10 + (d - 48)) 0

/-- Fuel-driven conversion of a natural number to its ASCII decimal digit bytes. -/
def digitsOfF : Nat → Nat → List Nat
  | 0, _ => []
  | fuel + 1, n => if n < 10 then [n + 48] else digitsOfF fuel (n / 10) ++ [n % 10 + 48]

/-- ASCII decimal digit bytes of a natural number, most significant first. -/
def digitsOf (n : Nat) : List Nat := digitsOfF (n + 1) n

theorem digitsOfF_congr : ∀ f g n : Nat, n < f → n < g → digitsOfF f n = digitsOfF g n := by
  intro f
  induction f with
  | zero => intro g n h; omega
  | succ f ih =>
    intro g n hf hg
    cases g with
    | zero => omega
    | succ g =>
      simp only [digitsOfF]
      by_cases h10 : n < 10
      · simp [h10]
      · simp only [h10, if_false]
        have hdiv : n / 10 < n := Nat.div_lt_self (by omega) (by omega)
        rw [ih g (n / 10) (by omega) (by omega)]

/-- Unfolding equation for `digitsOf`. -/
theorem digitsOf_eq (n : Nat) :
    digitsOf n = if n < 10 then [n + 48] else digitsOf (n / 10) ++ [n % 10 + 48] := by
  unfold digitsOf
  conv_lhs => rw [digitsOfF]
  by_cases h10 : n < 10
  · simp [h10]
  · simp only [h10, if_false]
    have hdiv : n / 10 < n := Nat.div_lt_self (by omega) (by omega)
    rw [digitsOfF_congr n (n / 10 + 1) (n / 10) (by omega) (by omega)]

theorem natOfDigits_append_singleton (ds : List Nat) (d : Nat) :
    natOfDigits (ds ++ [d]) = natOfDigits ds * 10 + (d - 48) := by
  simp [natOfDigits]

/-- Decimal digits round-trip: reading back the digits of `n` returns `n`. -/
theorem natOfDigits_digitsOf (n : Nat) : natOfDigits (digitsOf n) = n := by
  induction n using Nat.strong_induction_on with
  | _ n ih =>
    rw [digitsOf_eq]
    by_cases h10 : n < 10
    · simp [h10, natOfDigits]
    · simp only [h10, if_false]
      rw [natOfDigits_append_singleton]
      have hdiv : n / 10 < n := Nat.div_lt_self (by omega) (by omega)
      rw [ih (n / 10) hdiv]
      omega

/-- Every byte produced by `digitsOf` is an ASCII digit. -/
theorem digitsOf_all_digits (n : Nat) : ∀ d ∈ digitsOf n, isDigitByte d = true := by
  induction n using Nat.strong_induction_on with
  | _ n ih =>
    rw [digitsOf_eq]
    by_cases h10 : n < 10
    · simp only [h10, if_true, List.mem_singleton]
      intro d hd
      subst hd
      simp [isDigitByte]
      omega
    · simp only [h10, if_false]
      intro d hd
      rcases List.mem_append.mp hd with h | h
      · exact ih (n / 10) (Nat.div_lt_self (by omega) (by omega)) d h
      · simp only [List.mem_singleton] at h
        subst h
        simp [isDigitByte]
        omega

theorem digitsOf_ne_nil (n : Nat) : digitsOf n ≠ [] := by
  rw [digitsOf_eq]
  by_cases h10 : n < 10 <;> simp [h10]

/-! ### takeWhile / dropWhile over a fully-satisfying prefix -/

theorem takeWhile_all_append (p : Nat → Bool) (xs ys : List Nat)
    (hxs : ∀ x ∈ xs, p x = true) (hys : ∀ y, ys.head? = some y → p y = false) :
    (xs ++ ys).takeWhile p = xs := by
  induction xs with
  | nil =>
    simp only [List.nil_append]
    cases ys with
    | nil => simp
    | cons y ys => simp [List.takeWhile, hys y rfl]
  | cons x xs ih =>
    simp only [List.cons_append, List.takeWhile]
    rw [hxs x (by simp)]
    simp [ih (fun z hz => hxs z (by simp [hz]))]

theorem dropWhile_all_append (p : Nat → Bool) (xs ys : List Nat)
    (hxs : ∀ x ∈ xs, p x = true) (hys : ∀ y, ys.head? = some y → p y = false) :
    (xs ++ ys).dropWhile p = ys := by
  induction xs with
  | nil =>
    simp only [List.nil_append]
    cases ys with
    | nil => simp
    | cons y ys => simp [List.dropWhile, hys y rfl]
  | cons x xs ih =>
    simp only [List.cons_append, List.dropWhile]
    rw [hxs x (by simp)]
    simp [ih (fun z hz => hxs z (by simp [hz]))]

/-! ## The Value data model

Modelled from the spec (section 3): a Value is a fixed-width tagged union with
kinds Int, Float, Bool, None and Ref.  The Float payload is embedded as an exact
dyadic rational `m * 2 ^ e`; every finite IEEE-754 binary64 number is such a
dyadic, and the canonical form (`m` odd, or `m = 0 ∧ e = 0`) is in bijection with
the finite binary64 values via `wfF64` below.  NaN and the infinities have no
counterpart in the model. -/

/-- Modelled from the spec: the tagged Value union of section 3
(`kind : Int | Float | Bool | None | Ref` plus payload).  The Float payload
`float m e` denotes the dyadic rational `m * 2 ^ e`. -/
inductive Value where
  | int : Int → Value
  | float : Int → Int → Value
  | bool : Bool → Value
  | none : Value
  | ref : Nat → Value
deriving DecidableEq, Repr

/-- Rational denotation of a Float payload: `m * 2 ^ e`. -/
def dyadicVal (m e : Int) : ℚ := (m : ℚ) * (2 : ℚ) ^ e

/-! ## The entry shim `main` (embedded from src/main_stub.c)

`main` is embedded as a trace of the runtime calls it performs, as a function of
the value the environment variable `MOLT_PROFILE` has when `getenv` runs (after
`molt_main` has returned).  The environment value is `Option (List Nat)`:
`Option.none` models `getenv` returning `NULL`, `some l` models a NUL-terminated
C string with byte content `l`. -/

/-- Runtime calls the entry shim can perform.  `runtime_init` is the separate
runtime-initialization call named by the spec (section 6); the shim's event
alphabet includes it so that statements about it are expressible. -/
inductive REvent where
  | runtime_init : REvent
  | molt_main : REvent
  | getenv : Option (List Nat) → REvent
  | molt_profile_dump : REvent
deriving DecidableEq, Repr

/-- The profiling gate of main (src/main_stub.c line 21):
`profile != NULL && profile[0] != '\0' && strcmp(profile, "0") != 0`. -/
def profileEnabled (env : Option (List Nat)) : Bool :=
  match env with
  | Option.none => false
  | Option.some s => decide (s ≠ []) && decide (s ≠ [48])

/-- Trace of runtime calls performed by `main` (src/main_stub.c lines 18-25):
`molt_main()`, then `getenv("MOLT_PROFILE")`, then `molt_profile_dump()` exactly
when the gate is enabled. -/
def main_trace (env : Option (List Nat)) : List REvent :=
  [REvent.molt_main, REvent.getenv env] ++
    (if profileEnabled env then [REvent.molt_profile_dump] else [])

/-- Return value of `main` (src/main_stub.c line 24): the literal `0`. -/
def main_ret (_env : Option (List Nat)) : Int := 0

/-! ## Channels

Modelled from the spec (sections 3 and 4.4): a Channel is a bounded FIFO queue
of values with fixed capacity at least 0; `chan_send` completes (enqueues) when
the queue holds fewer than `capacity` items and otherwise suspends the calling
task; `chan_recv` dequeues the oldest item when the queue is nonempty and
otherwise suspends.  Channel values are `long` in the C surface, embedded as
`Int`. -/

/-- Modelled from the spec: bounded FIFO channel state (capacity plus pending
queue of enqueued-but-undelivered items). -/
structure Chan where
  capacity : Nat
  queue : List Int
deriving DecidableEq, Repr

/-- Modelled from the spec: `molt_chan_new(capacity)` allocates a bounded channel
with an empty queue. -/
def molt_chan_new (capacity : Nat) : Chan := ⟨capacity, []⟩

/-- Outcome of a channel operation: either it completes with the new channel
state (and, for recv, the delivered value), or it suspends the calling task. -/
inductive SendOutcome where
  | ok : Chan → SendOutcome
  | suspend : SendOutcome
deriving DecidableEq, Repr

/-- Outcome of `chan_recv`: a delivered value plus the new state, or suspension. -/
inductive RecvOutcome where
  | ok : Int → Chan → RecvOutcome
  | suspend : RecvOutcome
deriving DecidableEq, Repr

/-- Modelled from the spec: `molt_chan_send(chan, val)` enqueues when the channel
is not full and suspends the caller when it is (section 4.4; the body of
`molt_chan_send` is not in the sources, only its extern declaration). -/
def molt_chan_send (c : Chan) (v : Int) : SendOutcome :=
  if c.queue.length < c.capacity then SendOutcome.ok ⟨c.capacity, c.queue ++ [v]⟩
  else SendOutcome.suspend

/-- Modelled from the spec: `molt_chan_recv(chan)` dequeues the oldest item when
the queue is nonempty and suspends the caller when it is empty. -/
def molt_chan_recv (c : Chan) : RecvOutcome :=
  match c.queue with
  | [] => RecvOutcome.suspend
  | v :: rest => RecvOutcome.ok v ⟨c.capacity, rest⟩

/-- States of a single channel reachable from `molt_chan_new N` by completed
send and recv operations. -/
inductive ChanReachable (N : Nat) : Chan → Prop where
  | init : ChanReachable N (molt_chan_new N)
  | send (c c' : Chan) (v : Int) : ChanReachable N c →
      molt_chan_send c v = SendOutcome.ok c' → ChanReachable N c'
  | recv (c c' : Chan) (v : Int) : ChanReachable N c →
      molt_chan_recv c = RecvOutcome.ok v c' → ChanReachable N c'

/-- Fold a list of values through completing sends; fails if any send suspends. -/
def sendAll (c : Chan) : List Int → Option Chan
  | [] => Option.some c
  | v :: vs =>
    match molt_chan_send c v with
    | SendOutcome.ok c' => sendAll c' vs
    | SendOutcome.suspend => Option.none

/-! ## Object model

Modelled from the spec (section 4.2): a heap object carries field-layout
metadata mapping field names (raw bytes, explicit length) to stored Values;
`get_attr_generic` resolves an attribute by exact byte-sequence match and fails
with an `AttributeNotFound` condition on unknown names, via an explicit error
channel distinguishable from every valid stored Value. -/

/-- Modelled from the spec: error conditions of the object model. -/
inductive AttrError where
  | attributeNotFound : AttrError
deriving DecidableEq, Repr

/-- Modelled from the spec: a heap object as seen by attribute lookup — its
field-layout metadata, a list of (field name bytes, stored Value) pairs. -/
structure MoltObject where
  fields : List (List Nat × Value)
deriving DecidableEq, Repr

/-- Exact byte-sequence field lookup over the layout metadata. -/
def lookupField : List (List Nat × Value) → List Nat → Option Value
  | [], _ => Option.none
  | (n, v) :: rest, attr => if n = attr then Option.some v else lookupField rest attr

/-- Modelled from the spec: `molt_get_attr_generic(obj, attr, len)` resolves the
attribute by exact byte match against the object's known field names and signals
`AttributeNotFound` on an unknown name (the C body is not in the sources, only
its extern declaration). -/
def molt_get_attr_generic (obj : MoltObject) (attr : List Nat) : Except AttrError Value :=
  match lookupField obj.fields attr with
  | Option.some v => Except.ok v
  | Option.none => Except.error AttrError.attributeNotFound

theorem lookupField_eq_none (fs : List (List Nat × Value)) (attr : List Nat)
    (h : ∀ p ∈ fs, p.1 ≠ attr) : lookupField fs attr = Option.none := by
  induction fs with
  | nil => rfl
  | cons p rest ih =>
    obtain ⟨n, v⟩ := p
    simp only [lookupField]
    rw [if_neg (h (n, v) (by simp))]
    exact ih fun q hq => h q (by simp [hq])

/-! ## Dyadic float payloads and the IEEE-754 binary64 interchange encoding

A canonical dyadic pair `(m, e)` (`m` odd, or `(0, 0)`) denotes `m * 2 ^ e`.
`packF64`/`unpackF64` translate between canonical dyadics and the 64-bit
big-endian word layout of IEEE-754 binary64 (1 sign bit, 11 exponent bits with
bias 1023, 52 fraction bits, subnormals at biased exponent 0). -/
/-- Fuel-driven removal of factors of two (tail-recursive): returns the odd
part and the accumulated count of factors removed. -/
def stripTwosF : Nat → Nat → Nat → Nat × Nat
  | 0, n, acc => (n, acc)
  | fuel + 1, n, acc =>
    if n % 2 = 0 ∧ n ≠ 0 then stripTwosF fuel (n / 2) (acc + 1) else (n, acc)

/-- Odd part and 2-adic valuation of a natural number. -/
def stripTwos (n : Nat) : Nat × Nat := stripTwosF n n 0

theorem stripTwosF_mul_pow (a : Nat) (ha : a % 2 = 1) :
    ∀ s fuel acc : Nat, s ≤ fuel → stripTwosF fuel (a * 2 ^ s) acc = (a, acc + s) := by
  intro s
  induction s with
  | zero =>
    intro fuel acc _
    cases fuel with
    | zero => simp [stripTwosF]
    | succ fuel => simp [stripTwosF, ha]
  | succ s ih =>
    intro fuel acc hle
    cases fuel with
    | zero => omega
    | succ fuel =>
      have hDouble : a * 2 ^ (s + 1) = a * 2 ^ s * 2 := by rw [pow_succ, Nat.mul_assoc]
      have ha1 : 1 ≤ a := by omega
      have hpow : 1 ≤ a * 2 ^ s := by
        have : 1 ≤ 2 ^ s := Nat.one_le_two_pow
        exact Nat.mul_le_mul ha1 this
      have hpos : a * 2 ^ (s + 1) ≠ 0 := by omega
      have heven : a * 2 ^ (s + 1) % 2 = 0 := by omega
      have hdiv : a * 2 ^ (s + 1) / 2 = a * 2 ^ s := by omega
      simp only [stripTwosF, heven, hpos, ne_eq, not_false_eq_true, and_self, if_true, hdiv]
      rw [ih fuel (acc + 1) (by omega)]
      have : acc + 1 + s = acc + (s + 1) := by omega
      rw [this]

/-- Stripping the twos of `a * 2 ^ s` for odd `a` recovers `(a, s)`. -/
theorem stripTwos_mul_pow (a : Nat) (ha : a % 2 = 1) (s : Nat) :
    stripTwos (a * 2 ^ s) = (a, s) := by
  unfold stripTwos
  have h1 : s < 2 ^ s := Nat.lt_two_pow s
  have h2 : 2 ^ s ≤ a * 2 ^ s := by
    have : 1 ≤ a := by omega
    calc 2 ^ s = 1 * 2 ^ s := (one_mul _).symm
      _ ≤ a * 2 ^ s := Nat.mul_le_mul_right _ this
  have := stripTwosF_mul_pow a ha s (a * 2 ^ s) 0 (by omega)
  simpa using this

/-- Canonical form of a dyadic pair: strip all factors of two of the mantissa
into the exponent; zero is `(0, 0)`. -/
def canon (m e : Int) : Int × Int :=
  if m = 0 then (0, 0)
  else
    ((m.sign * ((stripTwos m.natAbs).1 : Int)), e + ((stripTwos m.natAbs).2 : Int))

theorem canon_mul_pow (m : Int) (hm : m.natAbs % 2 = 1) (s : Nat) (t : Int) :
    canon (m * 2 ^ s) t = (m, t + s) := by
  have hm0 : m ≠ 0 := by
    intro h; rw [h] at hm; simp at hm
  have hms : m * 2 ^ s ≠ 0 := by
    intro h
    rcases mul_eq_zero.mp h with h | h
    · exact hm0 h
    · exact absurd h (by positivity)
  have habs : (m * 2 ^ s).natAbs = m.natAbs * 2 ^ s := by
    rw [Int.natAbs_mul, Int.natAbs_pow]
    rfl
  have hsign : (m * 2 ^ s).sign = m.sign := by
    have h2 : ((2 : Int) ^ s).sign = 1 := Int.sign_eq_one_iff_pos.mpr (by positivity)
    rw [Int.sign_mul, h2, mul_one]
  unfold canon
  rw [if_neg hms, habs, stripTwos_mul_pow m.natAbs hm s, hsign]
  simp only [Prod.mk.injEq]
  constructor
  · exact Int.sign_mul_natAbs m
  · ring_nf

theorem canon_fst_mul_pow (m : Int) (hm : m.natAbs % 2 = 1) (s : Nat) (t : Int) :
    (canon (m * 2 ^ s) t).1 = m := by
  rw [canon_mul_pow m hm s t]

theorem canon_snd_mul_pow (m : Int) (hm : m.natAbs % 2 = 1) (s : Nat) (t : Int) :
    (canon (m * 2 ^ s) t).2 = t + s := by
  rw [canon_mul_pow m hm s t]

/-- Well-formed binary64 payload: zero, or an odd mantissa of at most 53 bits
whose value lies in the finite binary64 range (subnormal floor `2 ^ (-1074)`,
magnitude below `2 ^ 1024`). -/
def wfF64 (m e : Int) : Prop :=
  (m = 0 ∧ e = 0) ∨
    (m.natAbs % 2 = 1 ∧ m.natAbs < 2 ^ 53 ∧ -1074 ≤ e ∧ e + (m.natAbs.size : Int) ≤ 1024)

instance (m e : Int) : Decidable (wfF64 m e) := by unfold wfF64; infer_instance

/-- Pack a well-formed dyadic into the 64-bit IEEE-754 binary64 word
(sign bit, biased exponent, fraction; subnormals at biased exponent 0). -/
def packF64 (m e : Int) : Nat :=
  if m = 0 then 0
  else if -1021 ≤ e + (m.natAbs.size : Int) then
    (if m < 0 then 1 else 0) * 2 ^ 63 + (e + (m.natAbs.size : Int) + 1022).toNat * 2 ^ 52 +
      (m.natAbs * 2 ^ (53 - m.natAbs.size) - 2 ^ 52)
  else
    (if m < 0 then 1 else 0) * 2 ^ 63 + m.natAbs * 2 ^ (e + 1074).toNat

/-- Rebuild a signed canonical dyadic Float from a sign bit and a magnitude. -/
def mkFloat (sgn mag : Nat) (e : Int) : Value :=
  Value.float (canon (if sgn % 2 = 1 then -(mag : Int) else (mag : Int)) e).1
    (canon (if sgn % 2 = 1 then -(mag : Int) else (mag : Int)) e).2

/-- Unpack a 64-bit IEEE-754 binary64 word into a Float Value; the NaN and
infinity codes (biased exponent 2047) have no counterpart in the model and
yield failure. -/
def unpackF64 (u : Nat) : Option Value :=
  if u / 2 ^ 52 % 2 ^ 11 = 2047 then Option.none
  else if u / 2 ^ 52 % 2 ^ 11 = 0 then
    if u % 2 ^ 52 = 0 then Option.some (Value.float 0 0)
    else Option.some (mkFloat (u / 2 ^ 63) (u % 2 ^ 52) (-1074))
  else Option.some (mkFloat (u / 2 ^ 63) (2 ^ 52 + u % 2 ^ 52) ((u / 2 ^ 52 % 2 ^ 11 : Nat) - 1075))

/-- Unpack a 32-bit IEEE-754 binary32 word into a Float Value (decode-only;
bias 127, 23 fraction bits, subnormal exponent `-149`). -/
def unpackF32 (u : Nat) : Option Value :=
  if u / 2 ^ 23 % 2 ^ 8 = 255 then Option.none
  else if u / 2 ^ 23 % 2 ^ 8 = 0 then
    if u % 2 ^ 23 = 0 then Option.some (Value.float 0 0)
    else Option.some (mkFloat (u / 2 ^ 31) (u % 2 ^ 23) (-149))
  else Option.some (mkFloat (u / 2 ^ 31) (2 ^ 23 + u % 2 ^ 23) ((u / 2 ^ 23 % 2 ^ 8 : Nat) - 150))

theorem f64_fields_normal (s B X : Nat) (_hs : s ≤ 1) (hB1 : 1 ≤ B) (hB2 : B ≤ 2046)
    (hX1 : 2 ^ 52 ≤ X) (hX2 : X < 2 ^ 53) :
    (s * 2 ^ 63 + B * 2 ^ 52 + (X - 2 ^ 52)) / 2 ^ 63 = s ∧
      (s * 2 ^ 63 + B * 2 ^ 52 + (X - 2 ^ 52)) / 2 ^ 52 % 2 ^ 11 = B ∧
      (s * 2 ^ 63 + B * 2 ^ 52 + (X - 2 ^ 52)) % 2 ^ 52 = X - 2 ^ 52 := by
  omega

theorem f64_fields_subnormal (s Y : Nat) (_hs : s ≤ 1) (hY1 : 1 ≤ Y) (hY2 : Y < 2 ^ 52) :
    (s * 2 ^ 63 + Y) / 2 ^ 63 = s ∧
      (s * 2 ^ 63 + Y) / 2 ^ 52 % 2 ^ 11 = 0 ∧
      (s * 2 ^ 63 + Y) % 2 ^ 52 = Y := by
  omega

/-- Unpacking the packed form of a well-formed canonical dyadic recovers it. -/
theorem unpackF64_packF64 (m e : Int) (h : wfF64 m e) :
    unpackF64 (packF64 m e) = Option.some (Value.float m e) := by
  rcases h with ⟨hm, he⟩ | ⟨hodd, hlt, he1, he2⟩
  · subst hm; subst he
    decide
  · have hm0 : m ≠ 0 := by
      intro h; rw [h] at hodd; simp at hodd
    have ha0 : m.natAbs ≠ 0 := fun h => hm0 (Int.natAbs_eq_zero.mp h)
    have hsz1 : 1 ≤ m.natAbs.size := Nat.size_pos.mpr (by omega)
    have hsz53 : m.natAbs.size ≤ 53 := Nat.size_le.mpr hlt
    have hlower : 2 ^ (m.natAbs.size - 1) ≤ m.natAbs := Nat.lt_size.mp (by omega)
    have hupper : m.natAbs < 2 ^ m.natAbs.size := Nat.lt_size_self m.natAbs
    by_cases hn : -1021 ≤ e + (m.natAbs.size : Int)
    · -- normal-range packing
      have hXlow : 2 ^ 52 ≤ m.natAbs * 2 ^ (53 - m.natAbs.size) := by
        have hexp : m.natAbs.size - 1 + (53 - m.natAbs.size) = 52 := by omega
        calc (2 : Nat) ^ 52 = 2 ^ (m.natAbs.size - 1) * 2 ^ (53 - m.natAbs.size) := by
              rw [← pow_add, hexp]
          _ ≤ m.natAbs * 2 ^ (53 - m.natAbs.size) := Nat.mul_le_mul_right _ hlower
      have hXhigh : m.natAbs * 2 ^ (53 - m.natAbs.size) < 2 ^ 53 := by
        have hexp : m.natAbs.size + (53 - m.natAbs.size) = 53 := by omega
        calc m.natAbs * 2 ^ (53 - m.natAbs.size)
            < 2 ^ m.natAbs.size * 2 ^ (53 - m.natAbs.size) :=
              (Nat.mul_lt_mul_right (by positivity)).mpr hupper
          _ = 2 ^ 53 := by rw [← pow_add, hexp]
      have hBc : ((e + (m.natAbs.size : Int) + 1022).toNat : Int) =
          e + (m.natAbs.size : Int) + 1022 := by omega
      have hB1 : 1 ≤ (e + (m.natAbs.size : Int) + 1022).toNat := by omega
      have hB2 : (e + (m.natAbs.size : Int) + 1022).toNat ≤ 2046 := by omega
      by_cases hneg : m < 0
      · have hpack : packF64 m e =
            1 * 2 ^ 63 + (e + (m.natAbs.size : Int) + 1022).toNat * 2 ^ 52 +
              (m.natAbs * 2 ^ (53 - m.natAbs.size) - 2 ^ 52) := by
          rw [packF64, if_neg hm0, if_pos hn, if_pos hneg]
        obtain ⟨hd, hb, hf⟩ := f64_fields_normal 1 (e + (m.natAbs.size : Int) + 1022).toNat
          (m.natAbs * 2 ^ (53 - m.natAbs.size)) (by omega) hB1 hB2 hXlow hXhigh
        rw [hpack, unpackF64, hb, hf, if_neg (by omega), if_neg (by omega), hd]
        have hmag : 2 ^ 52 + (m.natAbs * 2 ^ (53 - m.natAbs.size) - 2 ^ 52) =
            m.natAbs * 2 ^ (53 - m.natAbs.size) := by omega
        rw [hmag, mkFloat]
        rw [if_pos (by omega : (1 : Nat) % 2 = 1)]
        have hc : -((m.natAbs * 2 ^ (53 - m.natAbs.size) : Nat) : Int) =
            m * 2 ^ (53 - m.natAbs.size) := by
          push_cast
          rw [abs_of_neg hneg]
          ring_nf
        rw [hc, canon_fst_mul_pow m hodd, canon_snd_mul_pow m hodd]
        have : ((e + (m.natAbs.size : Int) + 1022).toNat : Int) - 1075 +
            ((53 - m.natAbs.size : Nat) : Int) = e := by omega
        rw [this]
      · have hpack : packF64 m e =
            0 * 2 ^ 63 + (e + (m.natAbs.size : Int) + 1022).toNat * 2 ^ 52 +
              (m.natAbs * 2 ^ (53 - m.natAbs.size) - 2 ^ 52) := by
          rw [packF64, if_neg hm0, if_pos hn, if_neg hneg]
        obtain ⟨hd, hb, hf⟩ := f64_fields_normal 0 (e + (m.natAbs.size : Int) + 1022).toNat
          (m.natAbs * 2 ^ (53 - m.natAbs.size)) (by omega) hB1 hB2 hXlow hXhigh
        rw [hpack, unpackF64, hb, hf, if_neg (by omega), if_neg (by omega), hd]
        have hmag : 2 ^ 52 + (m.natAbs * 2 ^ (53 - m.natAbs.size) - 2 ^ 52) =
            m.natAbs * 2 ^ (53 - m.natAbs.size) := by omega
        rw [hmag, mkFloat]
        rw [if_neg (by omega : ¬ (0 : Nat) % 2 = 1)]
        have hc : ((m.natAbs * 2 ^ (53 - m.natAbs.size) : Nat) : Int) =
            m * 2 ^ (53 - m.natAbs.size) := by
          push_cast
          rw [abs_of_nonneg (by omega : (0 : Int) ≤ m)]
        rw [hc, canon_fst_mul_pow m hodd, canon_snd_mul_pow m hodd]
        have : ((e + (m.natAbs.size : Int) + 1022).toNat : Int) - 1075 +
            ((53 - m.natAbs.size : Nat) : Int) = e := by omega
        rw [this]
    · -- subnormal-range packing
      have hY1 : 1 ≤ m.natAbs * 2 ^ (e + 1074).toNat := by
        have h1 : 1 ≤ m.natAbs := by omega
        have h2 : 1 ≤ 2 ^ (e + 1074).toNat := Nat.one_le_two_pow
        calc 1 = 1 * 1 := (one_mul 1).symm
          _ ≤ m.natAbs * 2 ^ (e + 1074).toNat := Nat.mul_le_mul h1 h2
      have hYhigh : m.natAbs * 2 ^ (e + 1074).toNat < 2 ^ 52 := by
        have hexp : m.natAbs.size + (e + 1074).toNat ≤ 52 := by omega
        calc m.natAbs * 2 ^ (e + 1074).toNat
            < 2 ^ m.natAbs.size * 2 ^ (e + 1074).toNat :=
              (Nat.mul_lt_mul_right (by positivity)).mpr hupper
          _ = 2 ^ (m.natAbs.size + (e + 1074).toNat) := by rw [← pow_add]
          _ ≤ 2 ^ 52 := Nat.pow_le_pow_right (by omega) hexp
      by_cases hneg : m < 0
      · have hpack : packF64 m e = 1 * 2 ^ 63 + m.natAbs * 2 ^ (e + 1074).toNat := by
          rw [packF64, if_neg hm0, if_neg hn, if_pos hneg]
        obtain ⟨hd, hb, hf⟩ := f64_fields_subnormal 1 (m.natAbs * 2 ^ (e + 1074).toNat)
          (by omega) hY1 hYhigh
        rw [hpack, unpackF64, hb, hf, if_neg (by omega), if_pos rfl, if_neg (by omega), hd,
          mkFloat, if_pos (by omega : (1 : Nat) % 2 = 1)]
        have hc : -((m.natAbs * 2 ^ (e + 1074).toNat : Nat) : Int) =
            m * 2 ^ (e + 1074).toNat := by
          push_cast
          rw [abs_of_neg hneg]
          ring_nf
        rw [hc, canon_fst_mul_pow m hodd, canon_snd_mul_pow m hodd]
        have : (-1074 : Int) + (((e + 1074).toNat : Nat) : Int) = e := by omega
        rw [this]
      · have hpack : packF64 m e = 0 * 2 ^ 63 + m.natAbs * 2 ^ (e + 1074).toNat := by
          rw [packF64, if_neg hm0, if_neg hn, if_neg hneg]
        obtain ⟨hd, hb, hf⟩ := f64_fields_subnormal 0 (m.natAbs * 2 ^ (e + 1074).toNat)
          (by omega) hY1 hYhigh
        rw [hpack, unpackF64, hb, hf, if_neg (by omega), if_pos rfl, if_neg (by omega), hd,
          mkFloat, if_neg (by omega : ¬ (0 : Nat) % 2 = 1)]
        have hc : ((m.natAbs * 2 ^ (e + 1074).toNat : Nat) : Int) =
            m * 2 ^ (e + 1074).toNat := by
          push_cast
          rw [abs_of_nonneg (by omega : (0 : Int) ≤ m)]
        rw [hc, canon_fst_mul_pow m hodd, canon_snd_mul_pow m hodd]
        have : (-1074 : Int) + (((e + 1074).toNat : Nat) : Int) = e := by omega
        rw [this]

/-- The packed word of a well-formed dyadic fits in 64 bits. -/
theorem packF64_lt (m e : Int) (h : wfF64 m e) : packF64 m e < 2 ^ 64 := by
  rcases h with ⟨hm, he⟩ | ⟨hodd, hlt, he1, he2⟩
  · subst hm; subst he; decide
  · have hm0 : m ≠ 0 := by
      intro h; rw [h] at hodd; simp at hodd
    have ha0 : m.natAbs ≠ 0 := fun h => hm0 (Int.natAbs_eq_zero.mp h)
    have hsz1 : 1 ≤ m.natAbs.size := Nat.size_pos.mpr (by omega)
    have hsz53 : m.natAbs.size ≤ 53 := Nat.size_le.mpr hlt
    have hupper : m.natAbs < 2 ^ m.natAbs.size := Nat.lt_size_self m.natAbs
    have hsle : (if m < 0 then (1 : Nat) else 0) ≤ 1 := by
      by_cases h : m < 0 <;> simp [h]
    by_cases hn : -1021 ≤ e + (m.natAbs.size : Int)
    · have hXhigh : m.natAbs * 2 ^ (53 - m.natAbs.size) < 2 ^ 53 := by
        have hexp : m.natAbs.size + (53 - m.natAbs.size) = 53 := by omega
        calc m.natAbs * 2 ^ (53 - m.natAbs.size)
            < 2 ^ m.natAbs.size * 2 ^ (53 - m.natAbs.size) :=
              (Nat.mul_lt_mul_right (by positivity)).mpr hupper
          _ = 2 ^ 53 := by rw [← pow_add, hexp]
      have hB2 : (e + (m.natAbs.size : Int) + 1022).toNat ≤ 2046 := by omega
      rw [packF64, if_neg hm0, if_pos hn]
      omega
    · have hYhigh : m.natAbs * 2 ^ (e + 1074).toNat < 2 ^ 52 := by
        have hexp : m.natAbs.size + (e + 1074).toNat ≤ 52 := by omega
        calc m.natAbs * 2 ^ (e + 1074).toNat
            < 2 ^ m.natAbs.size * 2 ^ (e + 1074).toNat :=
              (Nat.mul_lt_mul_right (by positivity)).mpr hupper
          _ = 2 ^ (m.natAbs.size + (e + 1074).toNat) := by rw [← pow_add]
          _ ≤ 2 ^ 52 := Nat.pow_le_pow_right (by omega) hexp
      rw [packF64, if_neg hm0, if_neg hn]
      omega

/-! ## Big-endian byte serialization -/

/-- The `k` big-endian bytes of `v` (most significant first). -/
def beBytes : Nat → Nat → List Nat
  | 0, _ => []
  | k + 1, v => beBytes k (v / 256) ++ [v % 256]

/-- Read a big-endian byte list as a natural number. -/
def natOfBE (bs : List Nat) : Nat := bs.foldl (fun a b => a * 256 + b) 0

theorem beBytes_length (k v : Nat) : (beBytes k v).length = k := by
  induction k generalizing v with
  | zero => rfl
  | succ k ih => simp [beBytes, ih]

theorem natOfBE_append_singleton (bs : List Nat) (b : Nat) :
    natOfBE (bs ++ [b]) = natOfBE bs * 256 + b := by
  simp [natOfBE]

/-- Big-endian round-trip for values that fit in `k` bytes. -/
theorem natOfBE_beBytes (k v : Nat) (h : v < 2 ^ (8 * k)) : natOfBE (beBytes k v) = v := by
  induction k generalizing v with
  | zero =>
    simp only [Nat.mul_zero, pow_zero] at h
    interval_cases v
    rfl
  | succ k ih =>
    simp only [beBytes, natOfBE_append_singleton]
    have hdiv : v / 256 < 2 ^ (8 * k) := by
      have hpow : 2 ^ (8 * (k + 1)) = 2 ^ (8 * k) * 256 := by
        rw [show 8 * (k + 1) = 8 * k + 8 by omega, pow_add]
        norm_num
      omega
    rw [ih (v / 256) hdiv]
    omega

/-! ## Two's-complement 64-bit integers -/

/-- The 8 big-endian bytes of the two's-complement 64-bit encoding of `n`. -/
def int64Bytes (n : Int) : List Nat := beBytes 8 (n % (2 ^ 64 : Int)).toNat

/-- Read an unsigned 64-bit magnitude back as a signed two's-complement value
of the given byte width `w`. -/
def signedOfWidth (w : Nat) (u : Nat) : Int :=
  if u < 2 ^ (8 * w - 1) then (u : Int) else (u : Int) - 2 ^ (8 * w)

theorem signedOfWidth_int64Bytes (n : Int) (h1 : -(2 ^ 63) ≤ n) (h2 : n < 2 ^ 63) :
    signedOfWidth 8 (natOfBE (int64Bytes n)) = n := by
  unfold int64Bytes
  have h64 : ((2 : Int) ^ 64) = 18446744073709551616 := by norm_num
  rw [h64]
  have hlt : (n % (18446744073709551616 : Int)).toNat < 2 ^ (8 * 8) := by omega
  rw [natOfBE_beBytes 8 _ hlt]
  unfold signedOfWidth
  by_cases hc : (n % (18446744073709551616 : Int)).toNat < 2 ^ (8 * 8 - 1)
  · rw [if_pos hc]
    omega
  · rw [if_neg hc]
    rw [h64]
    omega

/-! ## Binary scalar decoders (MessagePack, CBOR)

Modelled from the spec (section 4.3): each decoder reads the first type-tag
byte, which declares the token class and the number of follow-on body bytes;
multi-byte integers and floats are big-endian.  A leading token that is not a
scalar (arrays, maps, strings, ...) yields no token class and the decoder
fails; a declared body length exceeding the remaining buffer also fails. -/

/-- Token classes a binary scalar tag byte can declare. -/
inductive BinScalarKind where
  | imm : Value → BinScalarKind
  | unsigned : Bool → BinScalarKind
  | signed : BinScalarKind
  | float32 : BinScalarKind
  | float64 : BinScalarKind
deriving DecidableEq, Repr

/-- Decode a token body according to its declared class: `imm` carries the
value itself, `unsigned` a big-endian magnitude (negated-offset when the flag
is set, for CBOR major type 1), `signed` a two's-complement integer of the
body's width, and the float classes IEEE-754 words. -/
def buildBin (k : BinScalarKind) (body : List Nat) : Option Value :=
  match k with
  | BinScalarKind.imm v => Option.some v
  | BinScalarKind.unsigned neg =>
    Option.some (Value.int (if neg then -1 - (natOfBE body : Int) else (natOfBE body : Int)))
  | BinScalarKind.signed => Option.some (Value.int (signedOfWidth body.length (natOfBE body)))
  | BinScalarKind.float32 => unpackF32 (natOfBE body)
  | BinScalarKind.float64 => unpackF64 (natOfBE body)

/-- Modelled from the spec: the MessagePack scalar tag bytes — nil `0xc0`,
booleans `0xc2`/`0xc3`, positive fixint `0x00`-`0x7f`, negative fixint
`0xe0`-`0xff`, uint8/16/32/64 `0xcc`-`0xcf`, int8/16/32/64 `0xd0`-`0xd3`,
float32 `0xca`, float64 `0xcb`.  Returns the token class and declared body
length; any other leading byte (e.g. an array marker) is not a scalar. -/
def msgpackTag (b : Nat) : Option (BinScalarKind × Nat) :=
  if b ≤ 0x7f then Option.some (BinScalarKind.imm (Value.int b), 0)
  else if b = 0xc0 then Option.some (BinScalarKind.imm Value.none, 0)
  else if b = 0xc2 then Option.some (BinScalarKind.imm (Value.bool false), 0)
  else if b = 0xc3 then Option.some (BinScalarKind.imm (Value.bool true), 0)
  else if b = 0xca then Option.some (BinScalarKind.float32, 4)
  else if b = 0xcb then Option.some (BinScalarKind.float64, 8)
  else if b = 0xcc then Option.some (BinScalarKind.unsigned false, 1)
  else if b = 0xcd then Option.some (BinScalarKind.unsigned false, 2)
  else if b = 0xce then Option.some (BinScalarKind.unsigned false, 4)
  else if b = 0xcf then Option.some (BinScalarKind.unsigned false, 8)
  else if b = 0xd0 then Option.some (BinScalarKind.signed, 1)
  else if b = 0xd1 then Option.some (BinScalarKind.signed, 2)
  else if b = 0xd2 then Option.some (BinScalarKind.signed, 4)
  else if b = 0xd3 then Option.some (BinScalarKind.signed, 8)
  else if 0xe0 ≤ b ∧ b ≤ 0xff then Option.some (BinScalarKind.imm (Value.int ((b : Int) - 256)), 0)
  else Option.none

/-- Modelled from the spec: `molt_msgpack_parse_scalar(ptr, len, out)` — decode
one leading MessagePack scalar token, ignoring trailing bytes; `Option.none`
models `success = false` with no partial Value (the C body is not in the
sources, only its extern declaration). -/
def parseBinScalar (tagf : Nat → Option (BinScalarKind × Nat)) (buf : List Nat) :
    Option Value :=
  match buf with
  | [] => Option.none
  | b :: rest =>
    match tagf b with
    | Option.none => Option.none
    | Option.some (k, n) => if rest.length < n then Option.none else buildBin k (rest.take n)

def molt_msgpack_parse_scalar (buf : List Nat) : Option Value := parseBinScalar msgpackTag buf

/-- Modelled from the spec: the CBOR initial byte — major type `b / 32` with
argument `b % 32`; major 0 is an unsigned integer, major 1 a negative integer
(`-1 - argument`), major 7 carries simple values (false 20, true 21, null 22)
and the float widths (26 = float32, 27 = float64); arguments 24-27 declare
1/2/4/8 follow-on bytes.  Majors 2-6 (strings, arrays, maps, tags) are not
scalars. -/
def cborTag (b : Nat) : Option (BinScalarKind × Nat) :=
  if 255 < b then Option.none
  else if b / 32 = 0 then
    if b % 32 ≤ 23 then Option.some (BinScalarKind.imm (Value.int (b % 32)), 0)
    else if b % 32 = 24 then Option.some (BinScalarKind.unsigned false, 1)
    else if b % 32 = 25 then Option.some (BinScalarKind.unsigned false, 2)
    else if b % 32 = 26 then Option.some (BinScalarKind.unsigned false, 4)
    else if b % 32 = 27 then Option.some (BinScalarKind.unsigned false, 8)
    else Option.none
  else if b / 32 = 1 then
    if b % 32 ≤ 23 then Option.some (BinScalarKind.imm (Value.int (-1 - (b % 32 : Int))), 0)
    else if b % 32 = 24 then Option.some (BinScalarKind.unsigned true, 1)
    else if b % 32 = 25 then Option.some (BinScalarKind.unsigned true, 2)
    else if b % 32 = 26 then Option.some (BinScalarKind.unsigned true, 4)
    else if b % 32 = 27 then Option.some (BinScalarKind.unsigned true, 8)
    else Option.none
  else if b / 32 = 7 then
    if b % 32 = 20 then Option.some (BinScalarKind.imm (Value.bool false), 0)
    else if b % 32 = 21 then Option.some (BinScalarKind.imm (Value.bool true), 0)
    else if b % 32 = 22 then Option.some (BinScalarKind.imm Value.none, 0)
    else if b % 32 = 26 then Option.some (BinScalarKind.float32, 4)
    else if b % 32 = 27 then Option.some (BinScalarKind.float64, 8)
    else Option.none
  else Option.none

/-- Modelled from the spec: `molt_cbor_parse_scalar(ptr, len, out)` — decode one
leading CBOR scalar token, ignoring trailing bytes; `Option.none` models
`success = false` with no partial Value (the C body is not in the sources, only
its extern declaration). -/
def molt_cbor_parse_scalar (buf : List Nat) : Option Value := parseBinScalar cborTag buf

/-! ## Scalar encoders

Modelled from the spec (section 8): the round-trip property needs an encoding
of a known scalar Value in each format.  Integers are emitted in the widest
integer form of the format (int64 `0xd3` for MessagePack; major 0/1 with 8-byte
argument for CBOR), floats as big-endian IEEE-754 binary64. -/

/-- Modelled from the spec: encode a scalar Value as one MessagePack token. -/
def molt_msgpack_encode_scalar (v : Value) : List Nat :=
  match v with
  | Value.int n => 0xd3 :: int64Bytes n
  | Value.float m e => 0xcb :: beBytes 8 (packF64 m e)
  | Value.bool false => [0xc2]
  | Value.bool true => [0xc3]
  | Value.none => [0xc0]
  | Value.ref _ => []

/-- Modelled from the spec: encode a scalar Value as one CBOR token. -/
def molt_cbor_encode_scalar (v : Value) : List Nat :=
  match v with
  | Value.int n =>
    if 0 ≤ n then 0x1b :: beBytes 8 n.toNat else 0x3b :: beBytes 8 (-1 - n).toNat
  | Value.float m e => 0xfb :: beBytes 8 (packF64 m e)
  | Value.bool false => [0xf4]
  | Value.bool true => [0xf5]
  | Value.none => [0xf6]
  | Value.ref _ => []

/-- A scalar Value whose payload fits the fixed-width C representation:
Int payloads are 64-bit two's-complement, Float payloads canonical finite
binary64 dyadics; Ref is not a scalar. -/
def Value.wfScalar : Value → Prop
  | Value.int n => -(2 ^ 63) ≤ n ∧ n < 2 ^ 63
  | Value.float m e => wfF64 m e
  | Value.bool _ => True
  | Value.none => True
  | Value.ref _ => False

instance (v : Value) : Decidable v.wfScalar := by
  cases v <;> simp only [Value.wfScalar] <;> infer_instance

theorem takeWhile_all (p : Nat → Bool) (xs : List Nat) (h : ∀ x ∈ xs, p x = true) :
    xs.takeWhile p = xs := by
  have := takeWhile_all_append p xs [] h (by simp)
  simpa using this

theorem dropWhile_all (p : Nat → Bool) (xs : List Nat) (h : ∀ x ∈ xs, p x = true) :
    xs.dropWhile p = [] := by
  have := dropWhile_all_append p xs [] h (by simp)
  simpa using this

/-! ## JSON scalar decoder

Modelled from the spec (section 4.3): the JSON decoder recognizes `null`,
`true`/`false`, and numeric literals (optional leading minus, digits, optional
fractional part, optional exponent with optional sign), decoding exactly one
leading token and ignoring trailing bytes.  A literal without fractional and
exponent parts decodes to Int, otherwise to Float; the decimal value
`mant * 10 ^ p` is converted to the exact canonical dyadic when the value is a
dyadic rational (always the case for encoder output), and truncated toward zero
at a fixed `2 ^ (-1100)` granularity otherwise (the spec leaves the rounding
mode of inexact decimals open). -/

/-- Convert the decimal `num * 10 ^ p` to a canonical dyadic pair; exact
whenever `5 ^ (-p)` divides `num`. -/
def decToDyadic (num : Int) (p : Int) : Int × Int :=
  if 0 ≤ p then canon (num * ((5 ^ p.toNat : Nat) : Int)) p
  else canon (num * ((2 ^ 1100 : Nat) : Int) / ((5 ^ (-p).toNat : Nat) : Int)) (-1100 + p)

/-- Parse an optional exponent part (`e`/`E`, optional `+`/`-`, digits); returns
`some Option.none` when no exponent marker leads (trailing bytes are ignored),
`Option.none` when a marker leads but its digits are missing (truncated). -/
def parseExpPart (l : List Nat) : Option (Option Int) :=
  match l with
  | [] => Option.some Option.none
  | c :: r =>
    if c = 101 ∨ c = 69 then
      if (if r.head? = Option.some 45 ∨ r.head? = Option.some 43 then r.tail else r).takeWhile
          isDigitByte = [] then Option.none
      else if r.head? = Option.some 45 then
        Option.some (Option.some
          (-(natOfDigits ((r.tail).takeWhile isDigitByte) : Int)))
      else
        Option.some (Option.some
          ((natOfDigits ((if r.head? = Option.some 43 then r.tail else r).takeWhile isDigitByte) : Int)))
    else Option.some Option.none

/-- Signed decimal mantissa assembled from the integer digits and the optional
fractional digits (value and count). -/
def jsonMant (neg : Bool) (iv : Nat) (fr : Option (Nat × Nat)) : Int :=
  if neg then -((iv : Int) * 10 ^ (fr.map Prod.snd).getD 0 + ((fr.map Prod.fst).getD 0 : Int))
  else (iv : Int) * 10 ^ (fr.map Prod.snd).getD 0 + ((fr.map Prod.fst).getD 0 : Int)

/-- Finish a numeric literal: parse the optional exponent and build the Value —
Int exactly when both the fractional part and the exponent are absent. -/
def jsonFinish (neg : Bool) (iv : Nat) (fr : Option (Nat × Nat)) (r2 : List Nat) : Option Value :=
  match parseExpPart r2 with
  | Option.none => Option.none
  | Option.some ex =>
    if fr = Option.none ∧ ex = Option.none then
      Option.some (Value.int (if neg then -(iv : Int) else (iv : Int)))
    else
      Option.some (Value.float
        (decToDyadic (jsonMant neg iv fr) (ex.getD 0 - ((fr.map Prod.snd).getD 0 : Int))).1
        (decToDyadic (jsonMant neg iv fr) (ex.getD 0 - ((fr.map Prod.snd).getD 0 : Int))).2)

/-- Parse the optional fractional part after the integer digits. -/
def jsonAfterInt (neg : Bool) (iv : Nat) (r1 : List Nat) : Option Value :=
  if r1.head? = Option.some 46 then
    if (r1.tail).takeWhile isDigitByte = [] then Option.none
    else jsonFinish neg iv
      (Option.some (natOfDigits ((r1.tail).takeWhile isDigitByte),
        ((r1.tail).takeWhile isDigitByte).length))
      ((r1.tail).dropWhile isDigitByte)
  else jsonFinish neg iv Option.none r1

/-- Parse the integer digits (required, nonempty) of a numeric literal. -/
def jsonNumberCore (neg : Bool) (r0 : List Nat) : Option Value :=
  if r0.takeWhile isDigitByte = [] then Option.none
  else jsonAfterInt neg (natOfDigits (r0.takeWhile isDigitByte)) (r0.dropWhile isDigitByte)

/-- Parse a numeric literal with optional leading minus. -/
def jsonNumber (buf : List Nat) : Option Value :=
  if buf.head? = Option.some 45 then jsonNumberCore true buf.tail
  else jsonNumberCore false buf

/-- Modelled from the spec: `molt_json_parse_scalar(ptr, len, out)` — decode one
leading JSON scalar token (`null`, `true`, `false`, or a numeric literal),
ignoring trailing bytes; `Option.none` models `success = false` with no partial
Value (the C body is not in the sources, only its extern declaration). -/
def molt_json_parse_scalar (buf : List Nat) : Option Value :=
  match buf with
  | [] => Option.none
  | b :: _ =>
    if b = 110 then
      if buf.take 4 = [110, 117, 108, 108] then Option.some Value.none else Option.none
    else if b = 116 then
      if buf.take 4 = [116, 114, 117, 101] then Option.some (Value.bool true) else Option.none
    else if b = 102 then
      if buf.take 5 = [102, 97, 108, 115, 101] then Option.some (Value.bool false) else Option.none
    else if b = 45 ∨ isDigitByte b then jsonNumber buf
    else Option.none

/-- Decimal digit bytes of a signed integer (leading `-` when negative). -/
def intBytes (n : Int) : List Nat :=
  if n < 0 then 45 :: digitsOf n.natAbs else digitsOf n.toNat

/-- Modelled from the spec: encode a scalar Value as one JSON token.  A Float
`m * 2 ^ e` is written as its exact decimal with an explicit exponent
(`<digits>e0` for `e ≥ 0`, `<m * 5 ^ k>e-<k>` for `e = -k < 0`), so that the
token re-decodes as a Float. -/
def molt_json_encode_scalar (v : Value) : List Nat :=
  match v with
  | Value.int n => intBytes n
  | Value.float m e =>
    if 0 ≤ e then intBytes (m * 2 ^ e.toNat) ++ [101, 48]
    else intBytes (m * 5 ^ (-e).toNat) ++ [101, 45] ++ digitsOf (-e).toNat
  | Value.bool true => [116, 114, 117, 101]
  | Value.bool false => [102, 97, 108, 115, 101]
  | Value.none => [110, 117, 108, 108]
  | Value.ref _ => []

/-! ## Numeric literals and symbolic execution of the JSON number parser -/

/-- Abstract shape of a JSON numeric literal: sign, integer digits, optional
fractional digits, optional exponent (marker byte, optional sign byte, digits). -/
structure NumLit where
  neg : Bool
  ids : List Nat
  frac : Option (List Nat)
  exp : Option (Nat × Option Nat × List Nat)

/-- A nonempty, all-digit byte run. -/
def goodDigits (ds : List Nat) : Prop := ds ≠ [] ∧ ∀ d ∈ ds, isDigitByte d = true

/-- Well-formedness of a numeric literal: nonempty digit runs everywhere, a
valid exponent marker (`e`/`E`) and a valid exponent sign byte (`+`/`-`). -/
def NumLit.WF (l : NumLit) : Prop :=
  goodDigits l.ids ∧
    (∀ fs, l.frac = Option.some fs → goodDigits fs) ∧
    (∀ mk sg ds, l.exp = Option.some (mk, sg, ds) →
      (mk = 101 ∨ mk = 69) ∧
        (sg = Option.none ∨ sg = Option.some 43 ∨ sg = Option.some 45) ∧ goodDigits ds)

/-- Surface bytes of an optional exponent sign. -/
def renderSign : Option Nat → List Nat
  | Option.none => []
  | Option.some c => [c]

/-- Surface bytes of an optional exponent part. -/
def renderExp : Option (Nat × Option Nat × List Nat) → List Nat
  | Option.none => []
  | Option.some (mk, sg, ds) => mk :: (renderSign sg ++ ds)

/-- Surface bytes of an optional fractional part. -/
def renderFrac : Option (List Nat) → List Nat
  | Option.none => []
  | Option.some fs => 46 :: fs

/-- Surface bytes of a numeric literal. -/
def NumLit.render (l : NumLit) : List Nat :=
  (if l.neg then [45] else []) ++ l.ids ++ renderFrac l.frac ++ renderExp l.exp

/-- Signed integer value of a rendered exponent part. -/
def expVal : Option (Nat × Option Nat × List Nat) → Option Int
  | Option.none => Option.none
  | Option.some (_, sg, ds) =>
    Option.some (if sg = Option.some 45 then -(natOfDigits ds : Int) else (natOfDigits ds : Int))

/-- Value and digit count of a rendered fractional part. -/
def fracVal : Option (List Nat) → Option (Nat × Nat)
  | Option.none => Option.none
  | Option.some fs => Option.some (natOfDigits fs, fs.length)

theorem parseExpPart_renderExp (x : Option (Nat × Option Nat × List Nat))
    (h : ∀ mk sg ds, x = Option.some (mk, sg, ds) →
      (mk = 101 ∨ mk = 69) ∧
        (sg = Option.none ∨ sg = Option.some 43 ∨ sg = Option.some 45) ∧ goodDigits ds) :
    parseExpPart (renderExp x) = Option.some (expVal x) := by
  cases x with
  | none => rfl
  | some t =>
    obtain ⟨mk, sg, ds⟩ := t
    obtain ⟨hmk, hsg, hds0, hdsd⟩ := h mk sg ds rfl
    have htw : ds.takeWhile isDigitByte = ds := takeWhile_all _ ds hdsd
    rcases hsg with hsg | hsg | hsg <;> subst hsg
    · -- no sign byte
      have hhead : ∀ y, ds.head? = Option.some y → (y ≠ 45 ∧ y ≠ 43) := by
        intro y hy
        cases ds with
        | nil => simp at hy
        | cons d t =>
          simp only [List.head?_cons, Option.some.injEq] at hy
          subst hy
          have := hdsd d (by simp)
          simp only [isDigitByte, Bool.and_eq_true, decide_eq_true_eq] at this
          omega
      simp only [renderExp, renderSign, List.nil_append, parseExpPart, expVal]
      rw [if_pos hmk]
      have hcond : ¬(ds.head? = Option.some 45 ∨ ds.head? = Option.some 43) := by
        rintro (hy | hy)
        · exact absurd rfl (hhead 45 hy).1
        · exact absurd rfl (hhead 43 hy).2
      rw [if_neg (by rw [if_neg hcond, htw]; exact hds0)]
      rw [if_neg (fun hy => absurd rfl (hhead 45 hy).1)]
      rw [if_neg (fun hy => absurd rfl (hhead 43 hy).2), htw]
      simp
    · -- plus sign byte
      simp only [renderExp, renderSign, List.singleton_append, parseExpPart, expVal]
      rw [if_pos hmk]
      have htw' : ((43 :: ds).tail).takeWhile isDigitByte = ds := by
        simpa using htw
      rw [if_neg (by
        rw [if_pos (by simp)]
        rw [htw']
        exact hds0)]
      rw [if_neg (by simp)]
      rw [if_pos (by simp), htw']
      simp
    · -- minus sign byte
      simp only [renderExp, renderSign, List.singleton_append, parseExpPart, expVal]
      rw [if_pos hmk]
      have htw' : ((45 :: ds).tail).takeWhile isDigitByte = ds := by
        simpa using htw
      rw [if_neg (by
        rw [if_pos (by simp)]
        rw [htw']
        exact hds0)]
      rw [if_pos (by simp), htw']
      simp

theorem renderExp_head_not_digit (l : NumLit) (h : l.WF) :
    ∀ y, (renderExp l.exp).head? = Option.some y → isDigitByte y = false := by
  intro y hy
  cases hx : l.exp with
  | none => rw [hx] at hy; simp [renderExp] at hy
  | some t =>
    obtain ⟨mk, sg, ds⟩ := t
    rw [hx] at hy
    simp only [renderExp, List.head?_cons, Option.some.injEq] at hy
    subst hy
    obtain ⟨hmk, _, _⟩ := h.2.2 mk sg ds hx
    rcases hmk with h | h <;> subst h <;> decide

theorem renderTail_head_not_digit (l : NumLit) (h : l.WF) :
    ∀ y, (renderFrac l.frac ++ renderExp l.exp).head? = Option.some y →
      isDigitByte y = false := by
  intro y hy
  cases hf : l.frac with
  | none =>
    rw [hf] at hy
    simp only [renderFrac, List.nil_append] at hy
    exact renderExp_head_not_digit l h y hy
  | some fs =>
    rw [hf] at hy
    simp only [renderFrac, List.cons_append, List.head?_cons, Option.some.injEq] at hy
    subst hy
    decide

theorem renderExp_head_not_46 (l : NumLit) (h : l.WF) :
    ¬ (renderExp l.exp).head? = Option.some 46 := by
  intro hy
  cases hx : l.exp with
  | none => rw [hx] at hy; simp [renderExp] at hy
  | some t =>
    obtain ⟨mk, sg, ds⟩ := t
    rw [hx] at hy
    simp only [renderExp, List.head?_cons, Option.some.injEq] at hy
    obtain ⟨hmk, _, _⟩ := h.2.2 mk sg ds hx
    omega

/-- Symbolic execution of the JSON scalar parser on a rendered numeric
literal. -/
theorem json_parse_render (l : NumLit) (h : l.WF) :
    molt_json_parse_scalar l.render =
      jsonFinish l.neg (natOfDigits l.ids) (fracVal l.frac) (renderExp l.exp) := by
  obtain ⟨⟨hids0, hidsd⟩, hfr, hex⟩ := h
  -- dissect the head byte
  obtain ⟨d, ids', hids⟩ : ∃ d ids', l.ids = d :: ids' := by
    cases hc : l.ids with
    | nil => exact absurd hc hids0
    | cons d t => exact ⟨d, t, rfl⟩
  have hd : isDigitByte d = true := hidsd d (by rw [hids]; simp)
  have hd' : 48 ≤ d ∧ d ≤ 57 := by
    simp only [isDigitByte, Bool.and_eq_true, decide_eq_true_eq] at hd
    exact hd
  have hcore : jsonNumberCore l.neg (l.ids ++ (renderFrac l.frac ++ renderExp l.exp)) =
      jsonFinish l.neg (natOfDigits l.ids) (fracVal l.frac) (renderExp l.exp) := by
    have htw : (l.ids ++ (renderFrac l.frac ++ renderExp l.exp)).takeWhile isDigitByte =
        l.ids :=
      takeWhile_all_append _ _ _ hidsd (renderTail_head_not_digit l ⟨⟨hids0, hidsd⟩, hfr, hex⟩)
    have hdw : (l.ids ++ (renderFrac l.frac ++ renderExp l.exp)).dropWhile isDigitByte =
        renderFrac l.frac ++ renderExp l.exp :=
      dropWhile_all_append _ _ _ hidsd (renderTail_head_not_digit l ⟨⟨hids0, hidsd⟩, hfr, hex⟩)
    rw [jsonNumberCore, htw, hdw, if_neg hids0]
    -- now the fractional dispatch
    cases hf : l.frac with
    | none =>
      simp only [renderFrac, List.nil_append]
      rw [jsonAfterInt, if_neg (renderExp_head_not_46 l ⟨⟨hids0, hidsd⟩, hfr, hex⟩)]
      rfl
    | some fs =>
      obtain ⟨hfs0, hfsd⟩ := hfr fs hf
      simp only [renderFrac, List.cons_append]
      rw [jsonAfterInt]
      rw [if_pos (by simp)]
      have htwf : ((46 :: (fs ++ renderExp l.exp)).tail).takeWhile isDigitByte = fs := by
        simp only [List.tail_cons]
        exact takeWhile_all_append _ _ _ hfsd
          (renderExp_head_not_digit l ⟨⟨hids0, hidsd⟩, hfr, hex⟩)
      have hdwf : ((46 :: (fs ++ renderExp l.exp)).tail).dropWhile isDigitByte =
          renderExp l.exp := by
        simp only [List.tail_cons]
        exact dropWhile_all_append _ _ _ hfsd
          (renderExp_head_not_digit l ⟨⟨hids0, hidsd⟩, hfr, hex⟩)
      rw [htwf, hdwf, if_neg hfs0]
      rfl
  cases hneg : l.neg with
  | true =>
    rw [hneg] at hcore
    have hrender : l.render = 45 :: (l.ids ++ (renderFrac l.frac ++ renderExp l.exp)) := by
      rw [NumLit.render, hneg]
      simp
    rw [hrender, molt_json_parse_scalar]
    rw [if_neg (by omega), if_neg (by omega), if_neg (by omega), if_pos (Or.inl rfl)]
    rw [jsonNumber]
    rw [if_pos (by simp)]
    simpa using hcore
  | false =>
    rw [hneg] at hcore
    have hrender : l.render = l.ids ++ (renderFrac l.frac ++ renderExp l.exp) := by
      rw [NumLit.render, hneg]
      simp
    rw [hrender, hids, List.cons_append, molt_json_parse_scalar]
    rw [if_neg (by omega), if_neg (by omega), if_neg (by omega),
      if_pos (Or.inr (by rw [hd]))]
    have hh : ¬((d :: (ids' ++ (renderFrac l.frac ++ renderExp l.exp))).head? =
        Option.some 45) := by
      simp only [List.head?_cons, Option.some.injEq]
      omega
    rw [jsonNumber, if_neg hh]
    rw [← List.cons_append, ← hids]
    exact hcore

/-- Outcome of finishing a literal whose exponent part is rendered: Int exactly
when the fractional and exponent parts are both absent, Float otherwise. -/
theorem jsonFinish_renderExp (neg : Bool) (iv : Nat) (fr : Option (Nat × Nat))
    (x : Option (Nat × Option Nat × List Nat))
    (hx : ∀ mk sg ds, x = Option.some (mk, sg, ds) →
      (mk = 101 ∨ mk = 69) ∧
        (sg = Option.none ∨ sg = Option.some 43 ∨ sg = Option.some 45) ∧ goodDigits ds) :
    jsonFinish neg iv fr (renderExp x) =
      if fr = Option.none ∧ expVal x = Option.none then
        Option.some (Value.int (if neg then -(iv : Int) else (iv : Int)))
      else
        Option.some (Value.float
          (decToDyadic (jsonMant neg iv fr)
            ((expVal x).getD 0 - ((fr.map Prod.snd).getD 0 : Int))).1
          (decToDyadic (jsonMant neg iv fr)
            ((expVal x).getD 0 - ((fr.map Prod.snd).getD 0 : Int))).2) := by
  rw [jsonFinish, parseExpPart_renderExp x hx]

/-- The JSON parse of integer digit bytes followed by a rendered exponent part. -/
theorem json_parse_intBytes_exp (M : Int) (x : Option (Nat × Option Nat × List Nat))
    (hx : ∀ mk sg ds, x = Option.some (mk, sg, ds) →
      (mk = 101 ∨ mk = 69) ∧
        (sg = Option.none ∨ sg = Option.some 43 ∨ sg = Option.some 45) ∧ goodDigits ds) :
    molt_json_parse_scalar (intBytes M ++ renderExp x) =
      jsonFinish (decide (M < 0)) M.natAbs Option.none (renderExp x) := by
  by_cases hM : M < 0
  · have hwf : NumLit.WF ⟨true, digitsOf M.natAbs, Option.none, x⟩ := by
      refine ⟨⟨digitsOf_ne_nil _, digitsOf_all_digits _⟩, ?_, ?_⟩
      · intro fs hfs; cases hfs
      · exact hx
    have hr : intBytes M ++ renderExp x =
        NumLit.render ⟨true, digitsOf M.natAbs, Option.none, x⟩ := by
      simp [intBytes, hM, NumLit.render, renderFrac]
    rw [hr, json_parse_render _ hwf]
    simp only [natOfDigits_digitsOf, fracVal]
    rw [show decide (M < 0) = true by simp [hM]]
  · have hwf : NumLit.WF ⟨false, digitsOf M.natAbs, Option.none, x⟩ := by
      refine ⟨⟨digitsOf_ne_nil _, digitsOf_all_digits _⟩, ?_, ?_⟩
      · intro fs hfs; cases hfs
      · exact hx
    have habs : M.natAbs = M.toNat := by omega
    have hr : intBytes M ++ renderExp x =
        NumLit.render ⟨false, digitsOf M.natAbs, Option.none, x⟩ := by
      simp [intBytes, hM, NumLit.render, renderFrac, habs]
    rw [hr, json_parse_render _ hwf]
    simp only [natOfDigits_digitsOf, fracVal]
    rw [show decide (M < 0) = false by simp [hM]]

/-- Exponent-part well-formedness of `e0` (the `e ≥ 0` float surface form). -/
theorem exp_e0_wf : ∀ mk sg ds,
    (Option.some (101, Option.none, [48]) : Option (Nat × Option Nat × List Nat)) =
        Option.some (mk, sg, ds) →
      (mk = 101 ∨ mk = 69) ∧
        (sg = Option.none ∨ sg = Option.some 43 ∨ sg = Option.some 45) ∧ goodDigits ds := by
  intro mk sg ds h
  injection h with h
  obtain ⟨h1, h2, h3⟩ := Prod.mk.injEq .. ▸ h
  · simp_all [goodDigits, isDigitByte]

/-- The JSON round-trip for scalar Values. -/
theorem json_roundtrip (v : Value) (h : v.wfScalar) :
    molt_json_parse_scalar (molt_json_encode_scalar v) = Option.some v := by
  cases v with
  | int n =>
    obtain ⟨h1, h2⟩ := h
    have henc : molt_json_encode_scalar (Value.int n) = intBytes n ++ renderExp Option.none := by
      simp [molt_json_encode_scalar, renderExp]
    rw [henc, json_parse_intBytes_exp n Option.none (by intro mk sg ds hc; cases hc)]
    rw [jsonFinish_renderExp _ _ _ _ (by intro mk sg ds hc; cases hc)]
    rw [if_pos ⟨rfl, rfl⟩]
    by_cases hn : n < 0
    · rw [show decide (n < 0) = true by simp [hn], if_pos rfl]
      simp only [Option.some.injEq, Value.int.injEq]
      omega
    · rw [show decide (n < 0) = false by simp [hn], if_neg (by simp)]
      simp only [Option.some.injEq, Value.int.injEq]
      omega
  | float m e =>
    rcases h with ⟨hm, he⟩ | ⟨hodd, hlt, he1, he2⟩
    · subst hm; subst he
      decide
    · have hm0 : m ≠ 0 := by
        intro hc; rw [hc] at hodd; simp at hodd
      by_cases he : 0 ≤ e
      · -- nonnegative exponent: surface form <digits>e0
        have henc : molt_json_encode_scalar (Value.float m e) =
            intBytes (m * 2 ^ e.toNat) ++ renderExp (Option.some (101, Option.none, [48])) := by
          simp [molt_json_encode_scalar, he, renderExp, renderSign]
        rw [henc, json_parse_intBytes_exp _ _ exp_e0_wf,
          jsonFinish_renderExp _ _ _ _ exp_e0_wf]
        rw [if_neg (by simp [expVal])]
        have hM0 : m * 2 ^ e.toNat ≠ 0 := by
          intro hc
          rcases mul_eq_zero.mp hc with hc | hc
          · exact hm0 hc
          · exact absurd hc (by positivity)
        have hmant : jsonMant (decide (m * 2 ^ e.toNat < 0)) (m * 2 ^ e.toNat).natAbs
            Option.none = m * 2 ^ e.toNat := by
          by_cases hMn : m * 2 ^ e.toNat < 0
          · rw [jsonMant, if_pos (by simp [hMn])]
            simp only [Option.map_none', Option.getD_none]
            have : ((m * 2 ^ e.toNat).natAbs : Int) = -(m * 2 ^ e.toNat) := by omega
            rw [this]
            ring_nf
          · rw [jsonMant, if_neg (by simp [hMn])]
            simp only [Option.map_none', Option.getD_none]
            have : ((m * 2 ^ e.toNat).natAbs : Int) = m * 2 ^ e.toNat := by omega
            rw [this]
            ring_nf
        rw [hmant]
        have hp : (expVal (Option.some (101, Option.none, [48]))).getD 0 -
            ((((Option.none : Option (Nat × Nat)).map Prod.snd).getD 0 : Nat) : Int) = 0 := by
          simp [expVal, natOfDigits]
        rw [hp]
        have hdec : decToDyadic (m * 2 ^ e.toNat) 0 = (m, e) := by
          rw [decToDyadic, if_pos le_rfl]
          simp only [Int.toNat_zero, pow_zero, Nat.cast_one, mul_one]
          rw [canon_mul_pow m hodd]
          have : (0 : Int) + (e.toNat : Int) = e := by omega
          rw [this]
        rw [hdec]
      · -- negative exponent: surface form <m * 5 ^ k>e-<k>
        have hk1 : 1 ≤ (-e).toNat := by omega
        have henc : molt_json_encode_scalar (Value.float m e) =
            intBytes (m * 5 ^ (-e).toNat) ++
              renderExp (Option.some (101, Option.some 45, digitsOf (-e).toNat)) := by
          simp [molt_json_encode_scalar, he, renderExp, renderSign]
        have hxwf : ∀ mk sg ds,
            (Option.some (101, Option.some 45, digitsOf (-e).toNat) :
                Option (Nat × Option Nat × List Nat)) = Option.some (mk, sg, ds) →
              (mk = 101 ∨ mk = 69) ∧
                (sg = Option.none ∨ sg = Option.some 43 ∨ sg = Option.some 45) ∧
                  goodDigits ds := by
          intro mk sg ds hc
          injection hc with hc
          obtain ⟨h1, h2⟩ := Prod.mk.injEq .. ▸ hc
          · subst h1
            obtain ⟨h2, h3⟩ := Prod.mk.injEq .. ▸ h2
            subst h2; subst h3
            exact ⟨Or.inl rfl, Or.inr (Or.inr rfl),
              digitsOf_ne_nil _, digitsOf_all_digits _⟩
        rw [henc, json_parse_intBytes_exp _ _ hxwf, jsonFinish_renderExp _ _ _ _ hxwf]
        rw [if_neg (by simp [expVal])]
        have hM0 : m * 5 ^ (-e).toNat ≠ 0 := by
          intro hc
          rcases mul_eq_zero.mp hc with hc | hc
          · exact hm0 hc
          · exact absurd hc (by positivity)
        have hmant : jsonMant (decide (m * 5 ^ (-e).toNat < 0)) (m * 5 ^ (-e).toNat).natAbs
            Option.none = m * 5 ^ (-e).toNat := by
          by_cases hMn : m * 5 ^ (-e).toNat < 0
          · rw [jsonMant, if_pos (by simp [hMn])]
            simp only [Option.map_none', Option.getD_none]
            have : ((m * 5 ^ (-e).toNat).natAbs : Int) = -(m * 5 ^ (-e).toNat) := by omega
            rw [this]
            ring_nf
          · rw [jsonMant, if_neg (by simp [hMn])]
            simp only [Option.map_none', Option.getD_none]
            have : ((m * 5 ^ (-e).toNat).natAbs : Int) = m * 5 ^ (-e).toNat := by omega
            rw [this]
            ring_nf
        rw [hmant]
        have hp : (expVal (Option.some (101, Option.some 45, digitsOf (-e).toNat))).getD 0 -
            ((((Option.none : Option (Nat × Nat)).map Prod.snd).getD 0 : Nat) : Int) =
              -(((-e).toNat : Nat) : Int) := by
          simp [expVal, natOfDigits_digitsOf]
        rw [hp]
        have hdec : decToDyadic (m * 5 ^ (-e).toNat) (-(((-e).toNat : Nat) : Int)) =
            (m, e) := by
          rw [decToDyadic, if_neg (by omega)]
          rw [show (((2 ^ 1100 : Nat) : Nat) : Int) = (2 : Int) ^ 1100 by push_cast; rfl]
          rw [show (((5 ^ (-(-(((-e).toNat : Nat) : Int))).toNat : Nat) : Nat) : Int) =
            (5 : Int) ^ (-(-(((-e).toNat : Nat) : Int))).toNat by push_cast; rfl]
          have hdiv : m * 5 ^ (-e).toNat * 2 ^ 1100 /
              (5 : Int) ^ (-(-(((-e).toNat : Nat) : Int))).toNat = m * 2 ^ 1100 := by
            have harg : (-(-(((-e).toNat : Nat) : Int))).toNat = (-e).toNat := by omega
            rw [harg]
            rw [mul_right_comm m (5 ^ (-e).toNat) (2 ^ 1100)]
            exact Int.mul_ediv_cancel _ (by positivity)
          rw [hdiv, canon_mul_pow m hodd]
          have : (-1100 : Int) + -(((-e).toNat : Nat) : Int) + (1100 : Nat) = e := by omega
          rw [this]
        rw [hdec]
  | bool b => cases b <;> decide
  | none => decide
  | ref a => exact absurd h (by simp [Value.wfScalar])

/-! ## Round-trips for the binary formats -/

theorem parseBinScalar_cons (tagf : Nat → Option (BinScalarKind × Nat)) (b : Nat)
    (rest : List Nat) (k : BinScalarKind) (n : Nat) (htag : tagf b = Option.some (k, n)) :
    parseBinScalar tagf (b :: rest) =
      if rest.length < n then Option.none else buildBin k (rest.take n) := by
  simp only [parseBinScalar, htag]

theorem parseBinScalar_tag_none (tagf : Nat → Option (BinScalarKind × Nat)) (b : Nat)
    (rest : List Nat) (htag : tagf b = Option.none) :
    parseBinScalar tagf (b :: rest) = Option.none := by
  simp only [parseBinScalar, htag]

theorem take_all_of_length (l : List Nat) (n : Nat) (h : l.length = n) : l.take n = l := by
  rw [← h]
  exact List.take_length l

/-- The MessagePack round-trip for scalar Values. -/
theorem msgpack_roundtrip (v : Value) (h : v.wfScalar) :
    molt_msgpack_parse_scalar (molt_msgpack_encode_scalar v) = Option.some v := by
  cases v with
  | int n =>
    obtain ⟨h1, h2⟩ := h
    have hlen : (int64Bytes n).length = 8 := beBytes_length 8 _
    show parseBinScalar msgpackTag (0xd3 :: int64Bytes n) = _
    rw [parseBinScalar_cons _ _ _ BinScalarKind.signed 8 (by decide)]
    rw [if_neg (show ¬ (int64Bytes n).length < 8 by omega), take_all_of_length _ _ hlen]
    simp only [buildBin, hlen]
    rw [signedOfWidth_int64Bytes n h1 h2]
  | float m e =>
    have hwf : wfF64 m e := h
    have hlen : (beBytes 8 (packF64 m e)).length = 8 := beBytes_length 8 _
    show parseBinScalar msgpackTag (0xcb :: beBytes 8 (packF64 m e)) = _
    rw [parseBinScalar_cons _ _ _ BinScalarKind.float64 8 (by decide)]
    rw [if_neg (show ¬ (beBytes 8 (packF64 m e)).length < 8 by omega),
      take_all_of_length _ _ hlen]
    simp only [buildBin]
    have hbound : packF64 m e < 2 ^ (8 * 8) := by
      have := packF64_lt m e hwf
      omega
    rw [natOfBE_beBytes 8 _ hbound, unpackF64_packF64 m e hwf]
  | bool b => cases b <;> decide
  | none => decide
  | ref a => exact absurd h (by simp [Value.wfScalar])

/-- The CBOR round-trip for scalar Values. -/
theorem cbor_roundtrip (v : Value) (h : v.wfScalar) :
    molt_cbor_parse_scalar (molt_cbor_encode_scalar v) = Option.some v := by
  cases v with
  | int n =>
    obtain ⟨h1, h2⟩ := h
    by_cases hn : 0 ≤ n
    · have henc : molt_cbor_encode_scalar (Value.int n) = 0x1b :: beBytes 8 n.toNat := by
        simp [molt_cbor_encode_scalar, hn]
      have hlen : (beBytes 8 n.toNat).length = 8 := beBytes_length 8 _
      rw [henc]
      show parseBinScalar cborTag _ = _
      rw [parseBinScalar_cons _ _ _ (BinScalarKind.unsigned false) 8 (by decide)]
      rw [if_neg (show ¬ (beBytes 8 n.toNat).length < 8 by omega),
        take_all_of_length _ _ hlen]
      simp only [buildBin, if_neg Bool.false_ne_true]
      rw [natOfBE_beBytes 8 _ (show n.toNat < 2 ^ (8 * 8) by omega)]
      have hval : ((n.toNat : Nat) : Int) = n := by omega
      rw [hval]
    · have henc : molt_cbor_encode_scalar (Value.int n) = 0x3b :: beBytes 8 (-1 - n).toNat := by
        simp [molt_cbor_encode_scalar, hn]
      have hlen : (beBytes 8 (-1 - n).toNat).length = 8 := beBytes_length 8 _
      rw [henc]
      show parseBinScalar cborTag _ = _
      rw [parseBinScalar_cons _ _ _ (BinScalarKind.unsigned true) 8 (by decide)]
      rw [if_neg (show ¬ (beBytes 8 (-1 - n).toNat).length < 8 by omega),
        take_all_of_length _ _ hlen]
      simp only [buildBin, if_pos rfl]
      rw [natOfBE_beBytes 8 _ (show (-1 - n).toNat < 2 ^ (8 * 8) by omega)]
      have hval : (-1 : Int) - (((-1 - n).toNat : Nat) : Int) = n := by omega
      rw [hval]
      simp
  | float m e =>
    have hwf : wfF64 m e := h
    have hlen : (beBytes 8 (packF64 m e)).length = 8 := beBytes_length 8 _
    show parseBinScalar cborTag (0xfb :: beBytes 8 (packF64 m e)) = _
    rw [parseBinScalar_cons _ _ _ BinScalarKind.float64 8 (by decide)]
    rw [if_neg (show ¬ (beBytes 8 (packF64 m e)).length < 8 by omega),
      take_all_of_length _ _ hlen]
    simp only [buildBin]
    have hbound : packF64 m e < 2 ^ (8 * 8) := by
      have := packF64_lt m e hwf
      omega
    rw [natOfBE_beBytes 8 _ hbound, unpackF64_packF64 m e hwf]
  | bool b => cases b <;> decide
  | none => decide
  | ref a => exact absurd h (by simp [Value.wfScalar])

/-! ## Format dispatch and failure classification -/

/-- The three self-describing wire formats with scalar decoders. -/
inductive Format where
  | json : Format
  | msgpack : Format
  | cbor : Format
deriving DecidableEq, Repr

/-- Per-format scalar decoder dispatch. -/
def parse_scalar : Format → List Nat → Option Value
  | Format.json => molt_json_parse_scalar
  | Format.msgpack => molt_msgpack_parse_scalar
  | Format.cbor => molt_cbor_parse_scalar

/-- Per-format scalar encoder dispatch. -/
def encode_scalar : Format → Value → List Nat
  | Format.json => molt_json_encode_scalar
  | Format.msgpack => molt_msgpack_encode_scalar
  | Format.cbor => molt_cbor_encode_scalar

/-- A JSON buffer whose leading token is truncated: a nonempty proper prefix of
one of the keyword tokens, or a bare minus sign. -/
def jsonTruncated (buf : List Nat) : Bool :=
  buf == [110] || buf == [110, 117] || buf == [110, 117, 108] ||
    buf == [116] || buf == [116, 114] || buf == [116, 114, 117] ||
    buf == [102] || buf == [102, 97] || buf == [102, 97, 108] ||
    buf == [102, 97, 108, 115] || buf == [45]

/-- A JSON leading byte that cannot start a scalar token (not a keyword head,
minus sign, or digit) — e.g. an object brace or array bracket. -/
def jsonNonScalarLead (buf : List Nat) : Bool :=
  match buf with
  | [] => false
  | b :: _ => !(b == 110 || b == 116 || b == 102 || b == 45 || isDigitByte b)

/-- A binary-format buffer whose leading tag declares more body bytes than the
buffer holds. -/
def binTruncated (tagf : Nat → Option (BinScalarKind × Nat)) : List Nat → Bool
  | [] => false
  | b :: rest =>
    match tagf b with
    | Option.some (_, n) => decide (rest.length < n)
    | Option.none => false

/-- A binary-format buffer whose leading byte declares no scalar token class
(array/map/string markers and other non-scalar leads). -/
def binNonScalarLead (tagf : Nat → Option (BinScalarKind × Nat)) : List Nat → Bool
  | [] => false
  | b :: _ => (tagf b).isNone

/-- The failure conditions of the spec, per format: empty buffer, truncated
leading token, or a non-scalar leading token. -/
def badInput : Format → List Nat → Bool
  | Format.json, buf => buf.isEmpty || jsonTruncated buf || jsonNonScalarLead buf
  | Format.msgpack, buf =>
    buf.isEmpty || binTruncated msgpackTag buf || binNonScalarLead msgpackTag buf
  | Format.cbor, buf => buf.isEmpty || binTruncated cborTag buf || binNonScalarLead cborTag buf

/-- A truncated JSON keyword or bare minus fails. -/
theorem json_truncated_fail (buf : List Nat) (h : jsonTruncated buf = true) :
    molt_json_parse_scalar buf = Option.none := by
  simp only [jsonTruncated, Bool.or_eq_true, beq_iff_eq] at h
  rcases h with ((((((((((h | h) | h) | h) | h) | h) | h) | h) | h) | h) | h) <;>
    subst h <;> decide

/-- A JSON buffer whose leading byte cannot start a scalar token fails. -/
theorem json_nonscalar_fail (b : Nat) (rest : List Nat) (h110 : b ≠ 110) (h116 : b ≠ 116)
    (h102 : b ≠ 102) (h45 : b ≠ 45) (hd : isDigitByte b = false) :
    molt_json_parse_scalar (b :: rest) = Option.none := by
  rw [molt_json_parse_scalar, if_neg h110, if_neg h116, if_neg h102]
  rw [if_neg (by
    rintro (hc | hc)
    · exact h45 hc
    · rw [hd] at hc
      cases hc)]

/-- A binary-format buffer that is empty, truncated, or led by a non-scalar
tag byte fails. -/
theorem parseBin_badInput (tagf : Nat → Option (BinScalarKind × Nat)) (buf : List Nat)
    (h : (buf.isEmpty || binTruncated tagf buf || binNonScalarLead tagf buf) = true) :
    parseBinScalar tagf buf = Option.none := by
  cases buf with
  | nil => rfl
  | cons b rest =>
    simp only [List.isEmpty_cons, Bool.false_or, Bool.or_eq_true] at h
    cases htag : tagf b with
    | none => exact parseBinScalar_tag_none _ _ _ htag
    | some kn =>
      obtain ⟨k, n⟩ := kn
      rcases h with h | h
      · simp only [binTruncated, htag, decide_eq_true_eq] at h
        rw [parseBinScalar_cons _ _ _ k n htag, if_pos h]
      · simp only [binNonScalarLead, htag, Option.isNone_some] at h
        cases h

/-! ## Channel lemmas -/

theorem chanReachable_inv (N : Nat) (c : Chan) (h : ChanReachable N c) :
    c.capacity = N ∧ c.queue.length ≤ N := by
  induction h with
  | init => exact ⟨rfl, by simp [molt_chan_new]⟩
  | send c c' v hr hs ih =>
    rw [molt_chan_send] at hs
    by_cases hc : c.queue.length < c.capacity
    · rw [if_pos hc] at hs
      injection hs with hs
      subst hs
      refine ⟨ih.1, ?_⟩
      simp only [List.length_append, List.length_singleton]
      omega
    · rw [if_neg hc] at hs
      cases hs
  | recv c c' v hr hs ih =>
    cases hq : c.queue with
    | nil =>
      simp only [molt_chan_recv, hq] at hs
      cases hs
    | cons w rest =>
      simp only [molt_chan_recv, hq] at hs
      injection hs with hs1 hs2
      subst hs2
      refine ⟨ih.1, ?_⟩
      have := ih.2
      rw [hq] at this
      simp only [List.length_cons] at this
      simp only [List.length]
      omega

theorem sendAll_ok (N : Nat) (q vs : List Int) (h : q.length + vs.length ≤ N) :
    sendAll ⟨N, q⟩ vs = Option.some ⟨N, q ++ vs⟩ := by
  induction vs generalizing q with
  | nil => simp [sendAll]
  | cons v vs ih =>
    rw [sendAll]
    have hcons : q.length + (v :: vs).length ≤ N := h
    have hlt : (Chan.mk N q).queue.length < (Chan.mk N q).capacity := by
      show q.length < N
      simp only [List.length_cons] at hcons
      omega
    rw [molt_chan_send, if_pos hlt]
    simp only
    rw [ih (q ++ [v]) (by simp only [List.length_append, List.length_cons,
      List.length_nil] at hcons ⊢; omega)]
    simp

theorem chan_send_full (c : Chan) (v : Int) (h : ¬ c.queue.length < c.capacity) :
    molt_chan_send c v = SendOutcome.suspend := by
  rw [molt_chan_send, if_neg h]

theorem chan_recv_empty (c : Chan) (h : c.queue = []) :
    molt_chan_recv c = RecvOutcome.suspend := by
  simp only [molt_chan_recv, h]

/-! # Claim theorems -/

/-- C1: the process entrypoint always returns exit code 0 on normal completion,
for every environment (src/main_stub.c returns the literal 0 regardless of the
profiling gate and of anything the generated program did). -/
theorem C1_main_returns_zero : ∀ env : Option (List Nat), main_ret env = 0 :=
  fun _ => rfl

/-- C2: after molt_main returns, main calls molt_profile_dump if and only if
MOLT_PROFILE is set to a value that is neither the empty string nor exactly
the string 0 (byte 48); unset, empty, or that exact string disable the dump. -/
theorem C2_profile_dump_gate : ∀ env : Option (List Nat),
    REvent.molt_profile_dump ∈ main_trace env ↔
      ∃ s, env = Option.some s ∧ s ≠ [] ∧ s ≠ [48] := by
  intro env
  have hmem : REvent.molt_profile_dump ∈ main_trace env ↔ profileEnabled env = true := by
    unfold main_trace
    by_cases hp : profileEnabled env = true
    · simp [hp]
    · simp [hp]
  rw [hmem]
  cases env with
  | none => simp [profileEnabled]
  | some s =>
    simp only [profileEnabled, Bool.and_eq_true, decide_eq_true_eq]
    constructor
    · rintro ⟨h1, h2⟩
      exact ⟨s, rfl, h1, h2⟩
    · rintro ⟨t, ht, h1, h2⟩
      injection ht with ht
      subst ht
      exact ⟨h1, h2⟩

/-- C3 counterexample: at the concrete environment `getenv = NULL`, the trace of
main does not contain a runtime-initialization call (it contains zero, not one),
refuting the claim that main performs a single runtime-initialization call
followed by the generated-program entrypoint call. -/
theorem C3_counterexample :
    ¬ ((main_trace Option.none).count REvent.runtime_init = 1 ∧
        (main_trace Option.none).count REvent.molt_main = 1) := by
  decide

/-- C3 (amended): the process entrypoint performs the generated-program
entrypoint call molt_main exactly once per process run, as its first action,
and performs no separate runtime-initialization call. -/
theorem C3_single_entrypoint_call : ∀ env : Option (List Nat),
    (main_trace env).count REvent.molt_main = 1 ∧
      (main_trace env).count REvent.runtime_init = 0 ∧
      (main_trace env).head? = Option.some REvent.molt_main := by
  intro env
  unfold main_trace
  by_cases hp : profileEnabled env = true
  · simp [hp, List.count_cons, List.count_append]
  · simp [hp, List.count_cons, List.count_append]

/-- C4: each of the three decoders returns failure (no partial Value) on every
buffer that is empty, whose leading token's declared encoding is truncated, or
whose leading token is not a scalar; in particular every decoder fails on the
empty buffer. -/
theorem C4_decoder_failure :
    (∀ (fmt : Format) (buf : List Nat), badInput fmt buf = true →
        parse_scalar fmt buf = Option.none) ∧
      (∀ fmt : Format, parse_scalar fmt [] = Option.none) := by
  constructor
  · intro fmt buf h
    cases fmt with
    | json =>
      cases buf with
      | nil => rfl
      | cons b rest =>
        simp only [badInput, List.isEmpty_cons, Bool.false_or, Bool.or_eq_true] at h
        rcases h with h | h
        · exact json_truncated_fail _ h
        · have h110 : b ≠ 110 := by rintro rfl; simp [jsonNonScalarLead] at h
          have h116 : b ≠ 116 := by rintro rfl; simp [jsonNonScalarLead] at h
          have h102 : b ≠ 102 := by rintro rfl; simp [jsonNonScalarLead] at h
          have h45 : b ≠ 45 := by rintro rfl; simp [jsonNonScalarLead] at h
          have hd : isDigitByte b = false := by
            cases hdb : isDigitByte b
            · rfl
            · exfalso
              simp [jsonNonScalarLead, hdb] at h
          exact json_nonscalar_fail b rest h110 h116 h102 h45 hd
    | msgpack => exact parseBin_badInput msgpackTag buf h
    | cbor => exact parseBin_badInput cborTag buf h
  · intro fmt
    cases fmt <;> rfl

theorem C4_decoder_failure_witness : parse_scalar Format.msgpack [144] = Option.none :=
  C4_decoder_failure.1 Format.msgpack [144] (by decide)

set_option maxRecDepth 8000 in
/-- C5: the JSON decoder maps the token null to the None Value, true and false
to Bool Values, 42 to Int 42, -3.5 to the Float denoting -3.5 (the canonical
dyadic (-7) * 2 ^ (-1)), and an object brace to failure; and every well-formed
numeric literal decodes to an Int exactly when it has no fractional part and no
exponent, and to a Float otherwise. -/
theorem C5_json_mapping :
    molt_json_parse_scalar [110, 117, 108, 108] = Option.some Value.none ∧
      molt_json_parse_scalar [116, 114, 117, 101] = Option.some (Value.bool true) ∧
      molt_json_parse_scalar [102, 97, 108, 115, 101] = Option.some (Value.bool false) ∧
      molt_json_parse_scalar [52, 50] = Option.some (Value.int 42) ∧
      molt_json_parse_scalar [45, 51, 46, 53] = Option.some (Value.float (-7) (-1)) ∧
      dyadicVal (-7) (-1) = -3.5 ∧
      molt_json_parse_scalar [123, 125] = Option.none ∧
      ∀ l : NumLit, l.WF →
        ∃ v, molt_json_parse_scalar l.render = Option.some v ∧
          ((∃ n, v = Value.int n) ↔ l.frac = Option.none ∧ l.exp = Option.none) ∧
          ((∃ m e, v = Value.float m e) ↔
            ¬(l.frac = Option.none ∧ l.exp = Option.none)) := by
  refine ⟨by decide, by decide, by decide, by decide, by decide, ?_, by decide, ?_⟩
  · rw [dyadicVal]
    norm_num
  · intro l hwf
    obtain ⟨hids, hfr, hex⟩ := hwf
    rw [json_parse_render l ⟨hids, hfr, hex⟩, jsonFinish_renderExp _ _ _ _ hex]
    have hfrIff : fracVal l.frac = Option.none ↔ l.frac = Option.none := by
      cases l.frac <;> simp [fracVal]
    have hexIff : expVal l.exp = Option.none ↔ l.exp = Option.none := by
      cases hx : l.exp with
      | none => simp [expVal]
      | some t =>
        obtain ⟨mk, sg, ds⟩ := t
        simp [expVal]
    by_cases hc : fracVal l.frac = Option.none ∧ expVal l.exp = Option.none
    · rw [if_pos hc]
      refine ⟨_, rfl, ?_, ?_⟩
      · exact ⟨fun _ => ⟨hfrIff.mp hc.1, hexIff.mp hc.2⟩, fun _ => ⟨_, rfl⟩⟩
      · constructor
        · rintro ⟨m, e, hme⟩
          simp at hme
        · intro hcon
          exact absurd ⟨hfrIff.mp hc.1, hexIff.mp hc.2⟩ hcon
    · rw [if_neg hc]
      refine ⟨_, rfl, ?_, ?_⟩
      · constructor
        · rintro ⟨n, hn⟩
          simp at hn
        · rintro ⟨hf, he⟩
          exact absurd ⟨hfrIff.mpr hf, hexIff.mpr he⟩ hc
      · exact ⟨fun _ hcon => hc ⟨hfrIff.mpr hcon.1, hexIff.mpr hcon.2⟩,
          fun _ => ⟨_, _, rfl⟩⟩

theorem C5_json_mapping_witness :
    ∃ v, molt_json_parse_scalar
        (NumLit.render ⟨false, [52], Option.none, Option.none⟩) = Option.some v ∧
      ((∃ n, v = Value.int n) ↔
        ((⟨false, [52], Option.none, Option.none⟩ : NumLit).frac = Option.none ∧
          (⟨false, [52], Option.none, Option.none⟩ : NumLit).exp = Option.none)) ∧
      ((∃ m e, v = Value.float m e) ↔
        ¬((⟨false, [52], Option.none, Option.none⟩ : NumLit).frac = Option.none ∧
          (⟨false, [52], Option.none, Option.none⟩ : NumLit).exp = Option.none)) :=
  C5_json_mapping.2.2.2.2.2.2.2 ⟨false, [52], Option.none, Option.none⟩
    (by
      refine ⟨⟨by decide, by decide⟩, ?_, ?_⟩
      · intro fs h
        cases h
      · intro mk sg ds h
        cases h)

/-- C6: the MessagePack decoder maps byte 0xc0 to None, 0xc3 to Bool true, and
positive fixint byte 0x05 to Int 5; the CBOR decoder maps byte 0xf6 to None,
0x00 to Int 0, and the major-type-4 byte 0x80 (empty array) to failure. -/
theorem C6_binary_concrete :
    molt_msgpack_parse_scalar [192] = Option.some Value.none ∧
      molt_msgpack_parse_scalar [195] = Option.some (Value.bool true) ∧
      molt_msgpack_parse_scalar [5] = Option.some (Value.int 5) ∧
      molt_cbor_parse_scalar [246] = Option.some Value.none ∧
      molt_cbor_parse_scalar [0] = Option.some (Value.int 0) ∧
      molt_cbor_parse_scalar [128] = Option.none := by
  decide

/-- C7: for each of the three formats, encoding any scalar Value of kind Int,
Float, Bool, or None and decoding the result with that format's parse_scalar
returns success with the original Value (wfScalar bounds the payloads to the
fixed-width C representation: int64 integers, finite binary64 floats). -/
theorem C7_roundtrip : ∀ (fmt : Format) (v : Value), v.wfScalar →
    parse_scalar fmt (encode_scalar fmt v) = Option.some v := by
  intro fmt v h
  cases fmt with
  | json => exact json_roundtrip v h
  | msgpack => exact msgpack_roundtrip v h
  | cbor => exact cbor_roundtrip v h

theorem C7_roundtrip_witness :
    parse_scalar Format.json (encode_scalar Format.json (Value.int 5)) =
      Option.some (Value.int 5) :=
  C7_roundtrip Format.json (Value.int 5) (by decide)

/-- C8: for every channel of capacity N, the queue of
enqueued-but-undelivered items never exceeds N in any reachable state; all N
sends of a length-N batch complete from the empty channel and the next send
suspends the caller; and a receive on an empty channel suspends the caller. -/
theorem C8_channel_capacity :
    (∀ (N : Nat) (c : Chan), ChanReachable N c → c.queue.length ≤ N) ∧
      (∀ (N : Nat) (vs : List Int), vs.length = N →
        ∃ c', sendAll (molt_chan_new N) vs = Option.some c' ∧
          ∀ v, molt_chan_send c' v = SendOutcome.suspend) ∧
      (∀ c : Chan, c.queue = [] → molt_chan_recv c = RecvOutcome.suspend) := by
  refine ⟨?_, ?_, ?_⟩
  · intro N c h
    exact (chanReachable_inv N c h).2
  · intro N vs hlen
    refine ⟨⟨N, vs⟩, ?_, ?_⟩
    · have h0 : ([] : List Int).length + vs.length ≤ N := by simp [hlen]
      have := sendAll_ok N [] vs h0
      simpa [molt_chan_new] using this
    · intro v
      apply chan_send_full
      simp [hlen]
  · exact chan_recv_empty

theorem C8_channel_capacity_witness :
    ∃ c', sendAll (molt_chan_new 1) [7] = Option.some c' ∧
      ∀ v, molt_chan_send c' v = SendOutcome.suspend :=
  C8_channel_capacity.2.1 1 [7] rfl

/-- C9: attribute lookup with a name that matches none of the object's field
names byte-for-byte fails with the AttributeNotFound condition, and that error
outcome is distinguishable from every valid stored Value of every kind. -/
theorem C9_attr_not_found : ∀ (obj : MoltObject) (attr : List Nat),
    (∀ p ∈ obj.fields, p.1 ≠ attr) →
      molt_get_attr_generic obj attr = Except.error AttrError.attributeNotFound ∧
        ∀ v : Value,
          (Except.error AttrError.attributeNotFound : Except AttrError Value) ≠
            Except.ok v := by
  intro obj attr h
  constructor
  · rw [molt_get_attr_generic, lookupField_eq_none obj.fields attr h]
  · intro v hc
    cases hc

theorem C9_attr_not_found_witness :
    molt_get_attr_generic ⟨[([97], Value.int 1)]⟩ [98] =
        Except.error AttrError.attributeNotFound ∧
      ∀ v : Value,
        (Except.error AttrError.attributeNotFound : Except AttrError Value) ≠
          Except.ok v :=
  C9_attr_not_found ⟨[([97], Value.int 1)]⟩ [98] (by decide)

/-- C10: in every execution of main, molt_profile_dump occurs at most once in
the trace, never at a position before molt_main, and whether it occurs is
determined solely by the MOLT_PROFILE value getenv yields after molt_main
returns (the gate profileEnabled is a function of that value alone). -/
theorem C10_profile_dump_temporal : ∀ env : Option (List Nat),
    (main_trace env).count REvent.molt_profile_dump ≤ 1 ∧
      (∀ i, (main_trace env).get? i = Option.some REvent.molt_profile_dump →
        ∃ j, j < i ∧ (main_trace env).get? j = Option.some REvent.molt_main) ∧
      (REvent.molt_profile_dump ∈ main_trace env ↔ profileEnabled env = true) := by
  intro env
  refine ⟨?_, ?_, ?_⟩
  · by_cases hp : profileEnabled env = true <;>
      simp [main_trace, hp, List.count_cons, List.count_append]
  · intro i h
    by_cases hp : profileEnabled env = true
    · cases i with
      | zero => simp [main_trace, hp] at h
      | succ i =>
        cases i with
        | zero => simp [main_trace, hp] at h
        | succ i =>
          refine ⟨0, by omega, ?_⟩
          simp [main_trace, hp]
    · cases i with
      | zero => simp [main_trace, hp] at h
      | succ i =>
        cases i with
        | zero => simp [main_trace, hp] at h
        | succ i => simp [main_trace, hp] at h
  · unfold main_trace
    by_cases hp : profileEnabled env = true
    · simp [hp]
    · simp [hp]

theorem C10_profile_dump_temporal_witness :
    (main_trace (Option.some [49])).count REvent.molt_profile_dump ≤ 1 ∧
      ∃ j, j < 2 ∧ (main_trace (Option.some [49])).get? j = Option.some REvent.molt_main :=
  ⟨(C10_profile_dump_temporal (Option.some [49])).1,
    (C10_profile_dump_temporal (Option.some [49])).2.1 2 (by decide)⟩
